import Mathlib

/-!
# Verification of the genealogy tree-conversion pipeline

A shallow embedding of `scripts/convert.py`: cell normalization,
adjacency-map construction, root selection, cycle-safe tree
materialization, and the post-processing name transformation, together
with proofs of the specified properties.

Python string primitives are modelled on their ASCII fragment
(`str.strip`, `str.lower`, `str.capitalize`, the regexes `[,;|]+` and
`\d+$`); every input appearing in the development is ASCII, where the
model and Python agree.
-/

namespace FamilyGeonology

/-- ASCII whitespace recognised by Python's `str.strip()`. -/
def pyIsSpace (c : Char) : Bool :=
  c == ' ' || c == '\t' || c == '\n' || c == '\r' || c == '\x0b' || c == '\x0c'

/-- `str.lower` on one character (ASCII fragment): `A`-`Z` maps to `a`-`z`. -/
def pyToLower (c : Char) : Char :=
  if 65 ≤ c.toNat ∧ c.toNat ≤ 90 then Char.ofNat (c.toNat + 32) else c

/-- `str.upper` on one character (ASCII fragment): `a`-`z` maps to `A`-`Z`. -/
def pyToUpper (c : Char) : Char :=
  if 97 ≤ c.toNat ∧ c.toNat ≤ 122 then Char.ofNat (c.toNat - 32) else c

/-- Remove leading and trailing whitespace from a character list. -/
def stripChars (l : List Char) : List Char :=
  (l.dropWhile pyIsSpace).rdropWhile pyIsSpace

/-- `str.strip()`: remove leading and trailing whitespace. -/
def pyStrip (s : String) : String :=
  String.mk (stripChars s.toList)

/-- `str.lower()`: lowercase every character. -/
def pyLower (s : String) : String :=
  String.mk (s.toList.map pyToLower)

/-- The delimiter class of `SPLIT_RE = re.compile(r'[,;|]+')`. -/
def isDelim (c : Char) : Bool :=
  c == ',' || c == ';' || c == '|'

/-- `normalize_cell` from `convert.py`.  `SPLIT_RE.split` on `[,;|]+` differs
from splitting at every single delimiter only by extra empty parts, which the
`if p.strip()` filter removes, so we split at single delimiters. -/
def normalize_cell (cell : String) : List String :=
  let s := pyLower (pyStrip cell)
  if s = "" || s = "nan" || s = "none" then []
  else if s.toList.any isDelim then
    (((s.toList.splitOnP isDelim).map String.mk).filter
        (fun p => pyStrip p ≠ "")).map (fun p => pyLower (pyStrip p))
  else [s]

/-- The `OrderedDict` of `convert.py`, as an insertion-ordered association
list with (by construction) pairwise distinct keys. -/
abbrev PCM := List (String × List String)

/-- Value of a key, `[]` when absent (`pcm.get(name, [])`). -/
def pcmGet (pcm : PCM) (k : String) : List String :=
  (pcm.lookup k).getD []

/-- `parent in pcm`. -/
def pcmHasKey (pcm : PCM) (k : String) : Bool :=
  (pcm.lookup k).isSome

/-- In-place update of an existing key's value, keeping insertion order. -/
def pcmSet (pcm : PCM) (k : String) (v : List String) : PCM :=
  pcm.map (fun kv => if kv.1 = k then (k, v) else kv)

/-- One step of the merge loop: `if ch not in pcm[parent]: pcm[parent].append(ch)`. -/
def addIfNew (acc : List String) (ch : String) : List String :=
  if ch ∈ acc then acc else acc ++ [ch]

/-- One step of the per-row dedup loop: `if ch and ch not in seen: ... append`. -/
def addIfNewNE (acc : List String) (ch : String) : List String :=
  if ch ≠ "" ∧ ch ∉ acc then acc ++ [ch] else acc

/-- "remove duplicates but keep order" loop of `build_parent_child_map`. -/
def dedupNE (l : List String) : List String :=
  l.foldl addIfNewNE []

/-- `not parent or parent in ["nan", "none"]`. -/
def isMissingParent (p : String) : Bool :=
  p == "" || p == "nan" || p == "none"

/-- `str(row.iloc[0]).strip().lower()` (the parent cell is not split). -/
def rowParent (row : List String) : String :=
  pyLower (pyStrip (row.headD ""))

/-- The concatenated normalized children of a row's non-parent cells. -/
def rowChildren (row : List String) : List String :=
  (row.drop 1).flatMap normalize_cell

/-- The body of the row loop of `build_parent_child_map`. -/
def processRow (pcm : PCM) (row : List String) : PCM :=
  let parent := rowParent row
  if isMissingParent parent then pcm
  else
    let children := dedupNE (rowChildren row)
    if pcmHasKey pcm parent then
      pcmSet pcm parent (children.foldl addIfNew (pcmGet pcm parent))
    else
      pcm ++ [(parent, children)]

/-- `build_parent_child_map` from `convert.py`, over the table's rows. -/
def build_parent_child_map (df : List (List String)) : PCM :=
  df.foldl processRow []

/-- The JSON node `{"name": ..., "children": [...]}`. -/
inductive Tree where
| node (name : String) (children : List Tree)

/-- All strings occurring in the map, as keys or as children. -/
def pcmTokens (pcm : PCM) : Finset String :=
  (pcm.map Prod.fst ++ (pcm.map Prod.snd).flatten).toFinset

theorem mem_tokens_of_pcmGet_ne_nil {pcm : PCM} {name : String}
    (h : pcmGet pcm name ≠ []) : name ∈ pcmTokens pcm := by
  unfold pcmGet at h
  cases hl : pcm.lookup name with
  | none => simp [hl] at h
  | some v =>
    have : (pcm.lookup name).isSome := by simp [hl]
    rw [List.lookup_isSome_iff] at this
    obtain ⟨p, hp, he⟩ := this
    simp only [beq_iff_eq] at he
    unfold pcmTokens
    subst he
    simp only [List.mem_toFinset, List.mem_append, List.mem_map]
    exact Or.inl ⟨p, hp, rfl⟩

theorem card_sdiff_insert_lt {pcm : PCM} {name : String} {visited : Finset String}
    (hmem : name ∈ pcmTokens pcm) (hnot : name ∉ visited) :
    (pcmTokens pcm \ insert name visited).card < (pcmTokens pcm \ visited).card := by
  apply Finset.card_lt_card
  constructor
  · exact Finset.sdiff_subset_sdiff (le_refl _) (Finset.subset_insert _ _)
  · intro hsub
    have h1 : name ∈ pcmTokens pcm \ visited := Finset.mem_sdiff.mpr ⟨hmem, hnot⟩
    have h2 := hsub h1
    rw [Finset.mem_sdiff] at h2
    exact h2.2 (Finset.mem_insert_self _ _)

/-- `make_node` from `convert.py`: cycle-safe materialization.  The Python
`visited.add(name)` followed by `visited.copy()` for every child hands each
recursive call the set `visited ∪ {name}`. -/
def make_node (name : String) (pcm : PCM) (visited : Finset String) : Tree :=
  if name ∈ visited then Tree.node name []
  else
    Tree.node name ((pcmGet pcm name).attach.map
      (fun ch => make_node ch.1 pcm (insert name visited)))
termination_by (pcmTokens pcm \ visited).card
decreasing_by
  rename_i hnot
  have hmem : name ∈ pcmTokens pcm := by
    apply mem_tokens_of_pcmGet_ne_nil
    intro hnil
    rw [hnil] at ch
    exact absurd ch.2 (List.not_mem_nil ch.1)
  exact card_sdiff_insert_lt hmem hnot

/-- The attach-free unfolding of `make_node`. -/
theorem make_node_eq (name : String) (pcm : PCM) (visited : Finset String) :
    make_node name pcm visited =
      if name ∈ visited then Tree.node name []
      else
        Tree.node name ((pcmGet pcm name).map
          (fun ch => make_node ch pcm (insert name visited))) := by
  rw [make_node]
  split
  · rfl
  · rw [List.attach_map_val (pcmGet pcm name) (fun ch => make_node ch pcm (insert name visited))]

/-- Fuel-indexed mirror of `make_node`, structurally recursive so that
concrete instances reduce by `rfl`; `make_node_eq_fuel` shows it agrees with
`make_node` whenever the fuel exceeds the number of unvisited tokens. -/
def make_nodeF (fuel : Nat) (name : String) (pcm : PCM) (visited : Finset String) : Tree :=
  match fuel with
  | 0 => Tree.node name []
  | fuel + 1 =>
    if name ∈ visited then Tree.node name []
    else
      Tree.node name ((pcmGet pcm name).map
        (fun ch => make_nodeF fuel ch pcm (insert name visited)))

theorem make_node_eq_fuel (fuel : Nat) :
    ∀ (name : String) (pcm : PCM) (visited : Finset String),
      (pcmTokens pcm \ visited).card < fuel →
      make_node name pcm visited = make_nodeF fuel name pcm visited := by
  induction fuel with
  | zero => intro _ _ _ h; exact absurd h (Nat.not_lt_zero _)
  | succ fuel ih =>
    intro name pcm visited hfuel
    rw [make_node_eq]
    unfold make_nodeF
    by_cases hv : name ∈ visited
    · simp [hv]
    · simp only [hv, if_neg, ite_false]
      congr 1
      apply List.map_congr_left
      intro ch hch
      apply ih
      have hmem : name ∈ pcmTokens pcm := by
        apply mem_tokens_of_pcmGet_ne_nil
        intro hnil
        rw [hnil] at hch
        exact absurd hch (List.not_mem_nil ch)
      have hlt := card_sdiff_insert_lt hmem hv
      omega

/-- `all_children` of `build_tree`: every string occurring in a child list. -/
def all_children (pcm : PCM) : List String :=
  (pcm.map Prod.snd).flatten

/-- `roots = [p for p in pcm.keys() if p not in all_children]`. -/
def rootsBase (pcm : PCM) : List String :=
  (pcm.map Prod.fst).filter (fun p => p ∉ all_children pcm)

/-- Root selection with the `if not roots` fallback to all keys. -/
def selectRoots (pcm : PCM) : List String :=
  if rootsBase pcm = [] then pcm.map Prod.fst else rootsBase pcm

/-- `forest[0] if len(forest) == 1 else forest`. -/
inductive BuildResult where
| one (t : Tree)
| many (ts : List Tree)

/-- `build_tree` from `convert.py`. -/
def build_tree (pcm : PCM) : BuildResult :=
  let forest := (selectRoots pcm).map (fun r => make_node r pcm ∅)
  match forest with
  | [t] => BuildResult.one t
  | ts => BuildResult.many ts

/-- `NUM_SUFFIX_RE.sub("", name)`: remove the trailing run of digits. -/
def stripTrailingDigits (s : String) : String :=
  String.mk (s.toList.rdropWhile Char.isDigit)

/-- Python `str.capitalize()` (ASCII fragment): uppercase the first
character, lowercase the rest. -/
def pyCapitalize (s : String) : String :=
  match s.toList with
  | [] => s
  | c :: cs => String.mk (pyToUpper c :: cs.map pyToLower)

/-- `clean_name` from `convert.py`. -/
def clean_name (name : String) : String :=
  if name = "" then name else pyCapitalize (stripTrailingDigits name)

/-- `transform_names` from `convert.py`: rewrite every node's name,
parent before children, leaving the structure alone. -/
def transform_names : Tree → Tree
  | Tree.node name children =>
    Tree.node (clean_name name) (children.attach.map (fun c => transform_names c.1))
termination_by t => sizeOf t
decreasing_by
  have := List.sizeOf_lt_of_mem c.2
  simp only [Tree.node.sizeOf_spec]
  omega

/-- The attach-free unfolding of `transform_names`. -/
theorem transform_names_eq (name : String) (children : List Tree) :
    transform_names (Tree.node name children) =
      Tree.node (clean_name name) (children.map transform_names) := by
  rw [transform_names]
  rw [List.attach_map_val children transform_names]

/-- The core of `main` in `convert.py`: build the map, build the tree,
then clean every name (`transform_names` applied to the single tree or
mapped over the forest). -/
def pipeline (df : List (List String)) : BuildResult :=
  match build_tree (build_parent_child_map df) with
  | BuildResult.one t => BuildResult.one (transform_names t)
  | BuildResult.many ts => BuildResult.many (ts.map transform_names)

/-- One adjacency edge of the map. -/
def step (pcm : PCM) (a b : String) : Prop :=
  b ∈ pcmGet pcm a

/-- An acyclic path of the adjacency map: pairwise-distinct tokens with
each consecutive pair an edge. -/
def IsAcyclicPath (pcm : PCM) (l : List String) : Prop :=
  l.Nodup ∧ l.Chain' (step pcm)

mutual

/-- Height of a tree: the number of nodes on a longest root-to-leaf path;
this is exactly the recursion depth `make_node` reaches to build it. -/
def Tree.height : Tree → Nat
  | Tree.node _ children => 1 + heightList children

def heightList : List Tree → Nat
  | [] => 0
  | t :: ts => max (Tree.height t) (heightList ts)

end

mutual

/-- The structure of a tree with every name erased. -/
def Tree.shape : Tree → Tree
  | Tree.node _ children => Tree.node "" (shapeList children)

def shapeList : List Tree → List Tree
  | [] => []
  | t :: ts => Tree.shape t :: shapeList ts

end

mutual

/-- All names of a tree, in preorder. -/
def Tree.names : Tree → List String
  | Tree.node name children => name :: namesList children

def namesList : List Tree → List String
  | [] => []
  | t :: ts => Tree.names t ++ namesList ts

end

/-- All child tokens contributed to parent `p` by the rows of the table,
in row order: the concatenated normalized children of every row whose
parent cell normalizes to `p`. -/
def childStream (df : List (List String)) (p : String) : List String :=
  (df.filter (fun r => rowParent r = p)).flatMap rowChildren

/-! ## The adjacency builder's merge discipline -/

theorem mem_addIfNew_of_mem {x : String} {acc : List String} (ch : String)
    (h : x ∈ acc) : x ∈ addIfNew acc ch := by
  unfold addIfNew
  split
  · exact h
  · exact List.mem_append_left _ h

theorem mem_foldl_addIfNew_of_mem_acc {x : String} :
    ∀ (d acc : List String), x ∈ acc → x ∈ d.foldl addIfNew acc := by
  intro d
  induction d with
  | nil => intro acc h; exact h
  | cons ch d ih =>
    intro acc h
    exact ih (addIfNew acc ch) (mem_addIfNew_of_mem ch h)

theorem mem_foldl_addIfNew_of_mem {x : String} :
    ∀ (d acc : List String), x ∈ d → x ∈ d.foldl addIfNew acc := by
  intro d
  induction d with
  | nil => intro acc h; exact absurd h (List.not_mem_nil x)
  | cons ch d ih =>
    intro acc h
    rcases List.mem_cons.mp h with h | h
    · subst h
      have hx : x ∈ addIfNew acc x := by
        unfold addIfNew
        split
        · assumption
        · exact List.mem_append_right _ (List.mem_singleton_self x)
      show x ∈ List.foldl addIfNew (addIfNew acc x) d
      exact mem_foldl_addIfNew_of_mem_acc d _ hx
    · exact ih _ h

theorem addIfNewNE_foldl_addIfNew (x : String) (seen acc : List String) :
    (addIfNewNE seen x).foldl addIfNew acc = addIfNewNE (seen.foldl addIfNew acc) x := by
  unfold addIfNewNE
  by_cases hx : x ≠ "" ∧ x ∉ seen
  · rw [if_pos hx, List.foldl_append]
    by_cases hm : x ∈ seen.foldl addIfNew acc
    · rw [if_neg (by push_neg; intro _; exact hm)]
      simp [addIfNew, hm]
    · rw [if_pos ⟨hx.1, hm⟩]
      simp [addIfNew, hm]
  · rw [if_neg hx]
    push_neg at hx
    by_cases he : x = ""
    · rw [if_neg (by push_neg; intro h; exact absurd he h)]
    · have hmem : x ∈ seen.foldl addIfNew acc :=
        mem_foldl_addIfNew_of_mem _ _ (hx he)
      rw [if_neg (by push_neg; intro _; exact hmem)]

/-- Folding the merge loop over a deduplicated row equals folding the
dedup loop over the raw row, starting from the merged-into list. -/
theorem foldl_addIfNewNE_comm (r : List String) :
    ∀ (seen acc : List String),
      (r.foldl addIfNewNE seen).foldl addIfNew acc
        = r.foldl addIfNewNE (seen.foldl addIfNew acc) := by
  induction r with
  | nil => intro seen acc; rfl
  | cons x r ih =>
    intro seen acc
    show (r.foldl addIfNewNE (addIfNewNE seen x)).foldl addIfNew acc = _
    rw [ih (addIfNewNE seen x) acc, addIfNewNE_foldl_addIfNew]
    rfl

theorem lookup_mem {pcm : PCM} {k : String} {v : List String}
    (h : pcm.lookup k = some v) : (k, v) ∈ pcm := by
  rw [List.lookup_eq_some_iff] at h
  obtain ⟨l₁, l₂, rfl, -⟩ := h
  simp

theorem lookup_cons_ite {β : Type} (a k : String) (b : β) (es : List (String × β)) :
    ((k, b) :: es).lookup a = if a = k then some b else es.lookup a := by
  rw [List.lookup_cons]
  by_cases h : a = k
  · simp [h]
  · rw [show (a == k) = false from beq_eq_false_iff_ne.mpr h, if_neg h]

theorem lookup_pcmSet_self :
    ∀ (pcm : PCM) (k : String) (v : List String), pcmHasKey pcm k →
      (pcmSet pcm k v).lookup k = some v := by
  intro pcm
  induction pcm with
  | nil => intro k v h; simp [pcmHasKey] at h
  | cons e pcm ih =>
    intro k v h
    rcases e with ⟨a, b⟩
    unfold pcmSet
    rw [List.map_cons]
    by_cases he : a = k
    · rw [if_pos he, lookup_cons_ite, if_pos rfl]
    · rw [if_neg (by simpa using he), lookup_cons_ite, if_neg (fun hk => he hk.symm)]
      apply ih
      unfold pcmHasKey at h ⊢
      rw [lookup_cons_ite, if_neg (fun hk => he hk.symm)] at h
      exact h

theorem lookup_pcmSet_ne :
    ∀ (pcm : PCM) (k : String) (v : List String) (q : String), q ≠ k →
      (pcmSet pcm k v).lookup q = pcm.lookup q := by
  intro pcm
  induction pcm with
  | nil => intro k v q _; rfl
  | cons e pcm ih =>
    intro k v q hq
    rcases e with ⟨a, b⟩
    unfold pcmSet
    rw [List.map_cons]
    by_cases he : a = k
    · rw [if_pos (by simpa using he), lookup_cons_ite, lookup_cons_ite,
        if_neg hq, if_neg (by rw [he]; exact hq)]
      exact ih k v q hq
    · rw [if_neg (by simpa using he), lookup_cons_ite, lookup_cons_ite]
      by_cases hqe : q = a
      · rw [if_pos hqe, if_pos hqe]
      · rw [if_neg hqe, if_neg hqe]
        exact ih k v q hq

theorem childStream_cons (row : List String) (df : List (List String)) (p : String) :
    childStream (row :: df) p
      = childStream [row] p ++ childStream df p := by
  unfold childStream
  rw [List.filter_cons]
  by_cases h : rowParent row = p
  · simp [h]
  · simp [h]

theorem pcmGet_processRow (acc : PCM) (row : List String) (p : String)
    (hp : ¬ isMissingParent p = true) :
    pcmGet (processRow acc row) p
      = (childStream [row] p).foldl addIfNewNE (pcmGet acc p) := by
  have hstream : childStream [row] p
      = if rowParent row = p then rowChildren row else [] := by
    unfold childStream
    rw [List.filter_cons]
    by_cases h : rowParent row = p <;> simp [h]
  unfold processRow
  by_cases hmiss : isMissingParent (rowParent row) = true
  · have hne : rowParent row ≠ p := by
      intro h; rw [h] at hmiss; exact hp hmiss
    rw [if_pos hmiss, hstream, if_neg hne]
    rfl
  · rw [if_neg hmiss]
    by_cases hpar : rowParent row = p
    · rw [hstream, if_pos hpar, hpar]
      by_cases hkey : pcmHasKey acc p
      · rw [if_pos hkey]
        unfold pcmGet
        rw [lookup_pcmSet_self acc p _ hkey]
        show (dedupNE (rowChildren row)).foldl addIfNew _ = _
        unfold dedupNE
        rw [foldl_addIfNewNE_comm]
        rfl
      · rw [if_neg hkey]
        have hnone : acc.lookup p = none := by
          unfold pcmHasKey at hkey
          cases h : acc.lookup p with
          | none => rfl
          | some v => rw [h] at hkey; simp at hkey
        unfold pcmGet
        rw [List.lookup_append, hnone]
        simp [dedupNE]
    · rw [hstream, if_neg hpar]
      by_cases hkey : pcmHasKey acc (rowParent row)
      · rw [if_pos hkey]
        unfold pcmGet
        rw [lookup_pcmSet_ne acc (rowParent row) _ p (fun h => hpar h.symm)]
        rfl
      · rw [if_neg hkey]
        unfold pcmGet
        rw [List.lookup_append]
        rw [show ([((rowParent row), dedupNE (rowChildren row))] : PCM).lookup p = none by
          rw [lookup_cons_ite, if_neg (fun h => hpar h.symm)]
          rfl]
        rw [Option.or_none]
        rfl

/-- Processing the whole table extends each valid parent's entry by the
dedup fold of that parent's child stream. -/
theorem foldl_processRow_char :
    ∀ (df : List (List String)) (acc : PCM) (p : String),
      ¬ isMissingParent p = true →
      pcmGet (df.foldl processRow acc) p
        = (childStream df p).foldl addIfNewNE (pcmGet acc p) := by
  intro df
  induction df with
  | nil => intro acc p _; rfl
  | cons row df ih =>
    intro acc p hp
    show pcmGet (df.foldl processRow (processRow acc row)) p = _
    rw [ih (processRow acc row) p hp, pcmGet_processRow acc row p hp,
      childStream_cons row df p, List.foldl_append]

theorem nodup_addIfNew {acc : List String} {ch : String} (h : acc.Nodup) :
    (addIfNew acc ch).Nodup := by
  unfold addIfNew
  split
  · exact h
  · rw [List.nodup_append]
    exact ⟨h, List.nodup_singleton ch, by
      intro a ha hb
      rw [List.mem_singleton] at hb
      subst hb
      exact absurd ha (by assumption)⟩

theorem nodup_addIfNewNE {acc : List String} {ch : String} (h : acc.Nodup) :
    (addIfNewNE acc ch).Nodup := by
  unfold addIfNewNE
  split
  · rename_i hc
    rw [List.nodup_append]
    exact ⟨h, List.nodup_singleton ch, by
      intro a ha hb
      rw [List.mem_singleton] at hb
      subst hb
      exact absurd ha hc.2⟩
  · exact h

theorem nodup_foldl_addIfNew :
    ∀ (l acc : List String), acc.Nodup → (l.foldl addIfNew acc).Nodup := by
  intro l
  induction l with
  | nil => intro acc h; exact h
  | cons ch l ih => intro acc h; exact ih _ (nodup_addIfNew h)

theorem nodup_foldl_addIfNewNE :
    ∀ (l acc : List String), acc.Nodup → (l.foldl addIfNewNE acc).Nodup := by
  intro l
  induction l with
  | nil => intro acc h; exact h
  | cons ch l ih => intro acc h; exact ih _ (nodup_addIfNewNE h)

theorem dedupNE_nodup (l : List String) : (dedupNE l).Nodup :=
  nodup_foldl_addIfNewNE l [] List.nodup_nil

theorem build_values_nodup :
    ∀ (df : List (List String)) (acc : PCM),
      (∀ e ∈ acc, e.2.Nodup) → ∀ e ∈ df.foldl processRow acc, e.2.Nodup := by
  intro df
  induction df with
  | nil => intro acc h; exact h
  | cons row df ih =>
    intro acc hacc
    apply ih
    intro e he
    simp only [processRow] at he
    split at he
    · exact hacc e he
    · split at he
      · unfold pcmSet at he
        rw [List.mem_map] at he
        obtain ⟨kv, hkv, he⟩ := he
        subst he
        split
        · show (List.foldl addIfNew _ _).Nodup
          apply nodup_foldl_addIfNew
          unfold pcmGet
          cases h : acc.lookup (rowParent row) with
          | none => exact List.nodup_nil
          | some v =>
            simp only [Option.getD_some]
            exact hacc _ (lookup_mem h)
        · exact hacc kv hkv
      · rw [List.mem_append] at he
        rcases he with he | he
        · exact hacc e he
        · rw [List.mem_singleton] at he
          subst he
          exact dedupNE_nodup _

/-! ## Properties of the string primitives -/

theorem char_toNat_inj {c d : Char} (h : c.toNat = d.toNat) : c = d :=
  Char.eq_of_val_eq (UInt32.toNat.inj h)

theorem char_ne_of_toNat_ne {c d : Char} (h : c.toNat ≠ d.toNat) : c ≠ d :=
  fun he => h (by rw [he])

theorem char_toNat_ofNat_valid {n : Nat} (h : n.isValidChar) : (Char.ofNat n).toNat = n := by
  unfold Char.ofNat
  rw [dif_pos h]
  rfl

theorem pyToLower_toNat_of_upper {c : Char} (h65 : 65 ≤ c.toNat) (h90 : c.toNat ≤ 90) :
    (pyToLower c).toNat = c.toNat + 32 := by
  unfold pyToLower
  rw [if_pos ⟨h65, h90⟩]
  exact char_toNat_ofNat_valid (Or.inl (by omega))

theorem pyToLower_eq_self {c : Char} (h : ¬(65 ≤ c.toNat ∧ c.toNat ≤ 90)) :
    pyToLower c = c := by
  unfold pyToLower
  rw [if_neg h]

theorem pyToLower_idem (c : Char) : pyToLower (pyToLower c) = pyToLower c := by
  by_cases h : 65 ≤ c.toNat ∧ c.toNat ≤ 90
  · have ht : (pyToLower c).toNat = c.toNat + 32 := pyToLower_toNat_of_upper h.1 h.2
    apply pyToLower_eq_self
    rw [ht]
    omega
  · rw [pyToLower_eq_self h]
    exact pyToLower_eq_self h

theorem pyIsSpace_eq_false_of_ge {c : Char} (h : 33 ≤ c.toNat) : pyIsSpace c = false := by
  unfold pyIsSpace
  rw [beq_eq_false_iff_ne.mpr (char_ne_of_toNat_ne
        (show c.toNat ≠ (' ' : Char).toNat by rw [show (' ' : Char).toNat = 32 from rfl]; omega)),
    beq_eq_false_iff_ne.mpr (char_ne_of_toNat_ne
        (show c.toNat ≠ ('\t' : Char).toNat by rw [show ('\t' : Char).toNat = 9 from rfl]; omega)),
    beq_eq_false_iff_ne.mpr (char_ne_of_toNat_ne
        (show c.toNat ≠ ('\n' : Char).toNat by rw [show ('\n' : Char).toNat = 10 from rfl]; omega)),
    beq_eq_false_iff_ne.mpr (char_ne_of_toNat_ne
        (show c.toNat ≠ ('\r' : Char).toNat by rw [show ('\r' : Char).toNat = 13 from rfl]; omega)),
    beq_eq_false_iff_ne.mpr (char_ne_of_toNat_ne
        (show c.toNat ≠ ('\x0b' : Char).toNat by rw [show ('\x0b' : Char).toNat = 11 from rfl]; omega)),
    beq_eq_false_iff_ne.mpr (char_ne_of_toNat_ne
        (show c.toNat ≠ ('\x0c' : Char).toNat by rw [show ('\x0c' : Char).toNat = 12 from rfl]; omega))]
  rfl

theorem pyIsSpace_pyToLower (c : Char) : pyIsSpace (pyToLower c) = pyIsSpace c := by
  by_cases h : 65 ≤ c.toNat ∧ c.toNat ≤ 90
  · rw [pyIsSpace_eq_false_of_ge (by rw [pyToLower_toNat_of_upper h.1 h.2]; omega),
      pyIsSpace_eq_false_of_ge (by omega)]
  · rw [pyToLower_eq_self h]

theorem stripChars_idem (l : List Char) : stripChars (stripChars l) = stripChars l := by
  unfold stripChars
  have hdrop : (stripChars l).dropWhile pyIsSpace = stripChars l := by
    rw [List.dropWhile_eq_self_iff]
    intro hl
    have hpre : stripChars l <+: l.dropWhile pyIsSpace :=
      List.rdropWhile_prefix pyIsSpace (l.dropWhile pyIsSpace)
    have hlt : 0 < (l.dropWhile pyIsSpace).length :=
      Nat.lt_of_lt_of_le hl (List.IsPrefix.length_le hpre)
    have hget := List.IsPrefix.getElem hpre (n := 0) hl
    have hself : (l.dropWhile pyIsSpace).dropWhile pyIsSpace = l.dropWhile pyIsSpace :=
      List.dropWhile_idempotent pyIsSpace l
    have hhead := (List.dropWhile_eq_self_iff).mp hself hlt
    simp only [List.get_eq_getElem] at hhead ⊢
    rw [hget]
    exact hhead
  show ((stripChars l).dropWhile pyIsSpace).rdropWhile pyIsSpace = stripChars l
  rw [hdrop]
  unfold stripChars
  exact List.rdropWhile_idempotent pyIsSpace (l.dropWhile pyIsSpace)

theorem pyIsSpace_comp_pyToLower :
    (fun c => pyIsSpace (pyToLower c)) = pyIsSpace :=
  funext pyIsSpace_pyToLower

theorem rdropWhile_map_pyToLower (l : List Char) :
    (l.map pyToLower).rdropWhile pyIsSpace = (l.rdropWhile pyIsSpace).map pyToLower := by
  unfold List.rdropWhile
  rw [show (List.map pyToLower l).reverse = l.reverse.map pyToLower from
      (List.map_reverse _ _).symm,
    List.dropWhile_map,
    show pyIsSpace ∘ pyToLower = pyIsSpace from funext pyIsSpace_pyToLower,
    ← List.map_reverse]

theorem stripChars_map_pyToLower (l : List Char) :
    stripChars (l.map pyToLower) = (stripChars l).map pyToLower := by
  unfold stripChars
  rw [List.dropWhile_map]
  rw [show pyIsSpace ∘ pyToLower = pyIsSpace from funext pyIsSpace_pyToLower]
  exact rdropWhile_map_pyToLower _

theorem toList_mk (l : List Char) : (String.mk l).toList = l := rfl

theorem pyStrip_pyStrip (s : String) : pyStrip (pyStrip s) = pyStrip s := by
  show String.mk (stripChars (stripChars s.toList)) = String.mk (stripChars s.toList)
  rw [stripChars_idem]

theorem pyStrip_pyLower (s : String) : pyStrip (pyLower s) = pyLower (pyStrip s) := by
  show String.mk (stripChars (s.toList.map pyToLower))
      = String.mk ((stripChars s.toList).map pyToLower)
  rw [stripChars_map_pyToLower]

theorem pyLower_pyLower (s : String) : pyLower (pyLower s) = pyLower s := by
  show String.mk ((s.toList.map pyToLower).map pyToLower) = String.mk (s.toList.map pyToLower)
  rw [List.map_map, show pyToLower ∘ pyToLower = pyToLower from funext pyToLower_idem]

/-- The composite `s.strip().lower()` is already stripped. -/
theorem pyStrip_pyLower_pyStrip (s : String) :
    pyStrip (pyLower (pyStrip s)) = pyLower (pyStrip s) := by
  rw [pyStrip_pyLower, pyStrip_pyStrip]

theorem rdropWhile_append_rtakeWhile (p : Char → Bool) (l : List Char) :
    l.rdropWhile p ++ l.rtakeWhile p = l := by
  unfold List.rdropWhile List.rtakeWhile
  rw [← List.reverse_append, List.takeWhile_append_dropWhile, List.reverse_reverse]

theorem string_eq_empty_of_toList_nil {s : String} (h : s.toList = []) : s = "" := by
  cases s with
  | mk data =>
    rw [show (String.mk data).toList = data from rfl] at h
    rw [h]

theorem pyLower_ne_empty {s : String} (h : s ≠ "") : pyLower s ≠ "" := by
  intro he
  apply h
  apply string_eq_empty_of_toList_nil
  have := congrArg String.toList he
  rw [show (pyLower s).toList = s.toList.map pyToLower from rfl] at this
  exact List.eq_nil_of_map_eq_nil this

/-! ## Height bound of materialization -/

theorem heightList_add_le (ts : List Tree) (c M : Nat) (hc : c ≤ M)
    (h : ∀ t ∈ ts, Tree.height t + c ≤ M) : heightList ts + c ≤ M := by
  induction ts with
  | nil =>
    rw [heightList]
    omega
  | cons t ts ih =>
    rw [heightList]
    have h1 := h t (List.mem_cons_self t ts)
    have h2 := ih (fun u hu => h u (List.mem_cons_of_mem _ hu))
    rcases Nat.le_total (Tree.height t) (heightList ts) with hle | hle
    · rw [Nat.max_eq_right hle]
      exact h2
    · rw [Nat.max_eq_left hle]
      exact h1

theorem make_node_height_aux (pcm : PCM) (B : Nat)
    (hB : ∀ l, IsAcyclicPath pcm l → l.length ≤ B) :
    ∀ (k : Nat) (pre : List String) (name : String) (visited : Finset String),
      (pcmTokens pcm \ visited).card ≤ k →
      pre.Nodup → pre.Chain' (step pcm) →
      (∀ x ∈ pre, x ∈ visited) →
      (∀ (h : pre ≠ []), step pcm (pre.getLast h) name) →
      Tree.height (make_node name pcm visited) + pre.length ≤ B + 1 := by
  intro k
  induction k using Nat.strong_induction_on with
  | _ k ih =>
    intro pre name visited hcard hnodup hchain hvis hlast
    have hpre : pre.length ≤ B := hB pre ⟨hnodup, hchain⟩
    rw [make_node_eq]
    by_cases hv : name ∈ visited
    · rw [if_pos hv]
      have : Tree.height (Tree.node name []) = 1 := by
        rw [Tree.height, heightList]
      omega
    · rw [if_neg hv]
      have hh : Tree.height (Tree.node name ((pcmGet pcm name).map
          (fun ch => make_node ch pcm (insert name visited))))
          = 1 + heightList ((pcmGet pcm name).map
              (fun ch => make_node ch pcm (insert name visited))) := by
        rw [Tree.height]
      rw [hh]
      have hch : ∀ u ∈ (pcmGet pcm name).map
          (fun ch => make_node ch pcm (insert name visited)),
          Tree.height u + (pre.length + 1) ≤ B + 1 := by
        intro u hu
        rw [List.mem_map] at hu
        obtain ⟨ch, hch, rfl⟩ := hu
        have hname_tok : name ∈ pcmTokens pcm := by
          apply mem_tokens_of_pcmGet_ne_nil
          intro hnil
          rw [hnil] at hch
          exact absurd hch (List.not_mem_nil ch)
        have hlt := card_sdiff_insert_lt hname_tok hv
        have hnodup' : (pre ++ [name]).Nodup := by
          rw [List.nodup_append]
          refine ⟨hnodup, List.nodup_singleton _, ?_⟩
          intro a ha hb
          rw [List.mem_singleton] at hb
          subst hb
          exact hv (hvis a ha)
        have hchain' : (pre ++ [name]).Chain' (step pcm) := by
          apply List.Chain'.append hchain (List.chain'_singleton _)
          intro x hx y hy
          simp only [List.head?_cons, Option.mem_def, Option.some.injEq] at hy
          subst hy
          have hpne : pre ≠ [] := by
            intro h
            rw [h] at hx
            exact absurd hx (by simp)
          rw [List.getLast?_eq_getLast _ hpne, Option.mem_def, Option.some.injEq] at hx
          subst hx
          exact hlast hpne
        have hvis' : ∀ x ∈ pre ++ [name], x ∈ insert name visited := by
          intro x hx
          rw [List.mem_append] at hx
          rcases hx with hx | hx
          · exact Finset.mem_insert_of_mem (hvis x hx)
          · rw [List.mem_singleton] at hx
            subst hx
            exact Finset.mem_insert_self _ _
        have hlast' : ∀ (h : (pre ++ [name]) ≠ []), step pcm ((pre ++ [name]).getLast h) ch := by
          intro h
          rw [List.getLast_append]
          exact hch
        have := ih ((pcmTokens pcm \ insert name visited).card) (by omega)
          (pre ++ [name]) ch (insert name visited) (le_refl _) hnodup' hchain' hvis' hlast'
        rw [List.length_append, List.length_singleton] at this
        omega
      have := heightList_add_le _ (pre.length + 1) (B + 1) (by omega) hch
      omega

/-! ## Structure preservation of the name transformation -/

mutual

theorem shape_transform_names (t : Tree) :
    Tree.shape (transform_names t) = Tree.shape t := by
  cases t with
  | node n cs =>
    rw [transform_names_eq, Tree.shape, Tree.shape, shapeList_map_transform cs]

theorem shapeList_map_transform (ts : List Tree) :
    shapeList (ts.map transform_names) = shapeList ts := by
  cases ts with
  | nil => rfl
  | cons t ts =>
    rw [List.map_cons, shapeList, shapeList, shape_transform_names t,
      shapeList_map_transform ts]

end

mutual

theorem names_transform_names (t : Tree) :
    Tree.names (transform_names t) = (Tree.names t).map clean_name := by
  cases t with
  | node n cs =>
    rw [transform_names_eq, Tree.names, Tree.names, namesList_map_transform cs,
      List.map_cons]

theorem namesList_map_transform (ts : List Tree) :
    namesList (ts.map transform_names) = (namesList ts).map clean_name := by
  cases ts with
  | nil => rfl
  | cons t ts =>
    rw [List.map_cons, namesList, namesList, names_transform_names t,
      namesList_map_transform ts, List.map_append]

end

/-! ## Concrete evaluations -/

/-- The input rows of the spec's end-to-end example. -/
def dfC1 : List (List String) :=
  [["root", "child1", "child2"], ["child1", "grandchild1"]]

theorem pipeline_dfC1_eval : pipeline dfC1 =
    BuildResult.one (Tree.node "Root"
      [Tree.node "Child" [Tree.node "Grandchild" []], Tree.node "Child" []]) := by
  have hmap : build_parent_child_map dfC1 =
      [("root", ["child1", "child2"]), ("child1", ["grandchild1"])] := rfl
  have htree : build_tree [("root", ["child1", "child2"]), ("child1", ["grandchild1"])] =
      BuildResult.one (Tree.node "root"
        [Tree.node "child1" [Tree.node "grandchild1" []], Tree.node "child2" []]) := by
    unfold build_tree
    rw [show selectRoots [("root", ["child1", "child2"]), ("child1", ["grandchild1"])] =
      ["root"] from rfl]
    simp only [List.map]
    rw [make_node_eq_fuel 6 _ _ _ (by decide)]
    rfl
  unfold pipeline
  rw [hmap, htree]
  simp only [transform_names_eq, List.map]
  rw [show clean_name "root" = "Root" from rfl, show clean_name "child1" = "Child" from rfl,
    show clean_name "grandchild1" = "Grandchild" from rfl,
    show clean_name "child2" = "Child" from rfl]

/-! ## The claims -/

/-- Claim C1, counterexample: on the two example rows the pipeline does
not produce the tree the spec displays — `clean_name` strips the trailing
digits, so the names come out `Child`/`Grandchild`, not `Child1`,
`Child2`, `Grandchild1`. -/
theorem C1_counterexample : pipeline dfC1 ≠
    BuildResult.one (Tree.node "Root"
      [Tree.node "Child1" [Tree.node "Grandchild1" []], Tree.node "Child2" []]) := by
  rw [pipeline_dfC1_eval]
  intro h
  simp only [BuildResult.one.injEq, Tree.node.injEq, List.cons.injEq] at h
  exact absurd h.2.1.1 (by decide)

/-- Claim C1, amended: running the core pipeline on the rows
`[["root","child1","child2"], ["child1","grandchild1"]]` produces exactly
the single tree with names `Root`, `Child` (twice, for `child1` and
`child2`) and `Grandchild` — the trailing digits are stripped and the
remainder capitalized. -/
theorem C1_end_to_end : pipeline dfC1 =
    BuildResult.one (Tree.node "Root"
      [Tree.node "Child" [Tree.node "Grandchild" []], Tree.node "Child" []]) :=
  pipeline_dfC1_eval

/-- Claim C4: on the two-cycle `{a: [b], b: [a]}`, materializing from `a`
with an empty visited set yields `a → b → a` where the repeated `a` is a
childless leaf. -/
theorem C4_cycle_breaking : make_node "a" [("a", ["b"]), ("b", ["a"])] ∅ =
    Tree.node "a" [Tree.node "b" [Tree.node "a" []]] := by
  rw [make_node_eq_fuel 5 _ _ _ (by decide)]
  rfl

/-- Claim C3: a parent key is a base root iff it is a key that occurs in
no child list; the selected roots are a subsequence of the keys in
insertion order; when no key qualifies the selection falls back to all
keys; and on `{a: [b], b: [c]}` the selected roots are exactly `[a]`. -/
theorem C3_root_selection :
    (∀ pcm : PCM,
      (∀ p, p ∈ rootsBase pcm ↔ p ∈ pcm.map Prod.fst ∧ p ∉ all_children pcm)
      ∧ (selectRoots pcm).Sublist (pcm.map Prod.fst)
      ∧ (rootsBase pcm = [] → selectRoots pcm = pcm.map Prod.fst)
      ∧ (rootsBase pcm ≠ [] → selectRoots pcm = rootsBase pcm))
    ∧ selectRoots [("a", ["b"]), ("b", ["c"])] = ["a"] := by
  constructor
  · intro pcm
    refine ⟨?_, ?_, ?_, ?_⟩
    · intro p
      simp [rootsBase, List.mem_filter]
    · unfold selectRoots
      split
      · exact List.Sublist.refl _
      · exact List.filter_sublist _
    · intro h
      simp [selectRoots, h]
    · intro h
      simp [selectRoots, h]
  · rfl

/-- Witness for C3: on `{a: [b], b: [c]}` the fallback does not trigger,
so the selection equals the base root filter. -/
theorem C3_root_selection_witness :
    selectRoots [("a", ["b"]), ("b", ["c"])] = rootsBase [("a", ["b"]), ("b", ["c"])] :=
  (C3_root_selection.1 [("a", ["b"]), ("b", ["c"])]).2.2.2 (by decide)

/-- Claim C2: for every table, each valid parent's entry in the built map
is the first-occurrence-order deduplication of that parent's full child
stream across all its rows (so merging appends only children not already
present, in order); every entry's child list is duplicate-free; and rows
`[a,b]`, `[a,c]`, `[a,b]` build exactly `a ↦ [b, c]`. -/
theorem C2_adjacency :
    (∀ (df : List (List String)) (p : String), ¬ isMissingParent p = true →
        pcmGet (build_parent_child_map df) p = dedupNE (childStream df p))
    ∧ (∀ (df : List (List String)) (e : String × List String),
        e ∈ build_parent_child_map df → e.2.Nodup)
    ∧ build_parent_child_map [["a", "b"], ["a", "c"], ["a", "b"]] = [("a", ["b", "c"])] := by
  refine ⟨?_, ?_, rfl⟩
  · intro df p hp
    unfold build_parent_child_map dedupNE
    rw [foldl_processRow_char df [] p hp]
    rfl
  · intro df e he
    exact build_values_nodup df [] (by simp) e he

/-- Witness for C2: the characterization instantiated on the example
table at parent `a`. -/
theorem C2_adjacency_witness :
    pcmGet (build_parent_child_map [["a", "b"], ["a", "c"], ["a", "b"]]) "a" =
      dedupNE (childStream [["a", "b"], ["a", "c"], ["a", "b"]] "a") :=
  C2_adjacency.1 [["a", "b"], ["a", "c"], ["a", "b"]] "a" (by decide)

/-- Claim C6, counterexample: the delimiter branch of `normalize_cell`
filters split parts only for emptiness, not for the missing sentinels, so
the cell `"nan,x"` emits the token `"nan"`. -/
theorem C6_counterexample :
    ¬ (∀ t ∈ normalize_cell "nan,x",
        pyStrip t = t ∧ pyLower t = t ∧ t ≠ "" ∧ t ≠ "nan" ∧ t ≠ "none") := by
  intro h
  exact (h "nan" (by decide)).2.2.2.1 rfl

/-- Claim C6, amended: every element of `normalize_cell` is trimmed,
lowercase and non-empty; it is moreover guaranteed distinct from the
missing sentinels `"nan"`/`"none"` only when the normalized cell contains
no delimiter character (split parts are not sentinel-filtered). -/
theorem C6_token_invariant :
    ∀ (cell : String), ∀ t ∈ normalize_cell cell,
      pyStrip t = t ∧ pyLower t = t ∧ t ≠ ""
      ∧ ((pyLower (pyStrip cell)).toList.any isDelim = false →
          t ≠ "nan" ∧ t ≠ "none") := by
  intro cell t ht
  simp only [normalize_cell] at ht
  split at ht
  · exact absurd ht (List.not_mem_nil t)
  · rename_i hsent
    split at ht
    · rename_i hdelim
      rw [List.mem_map] at ht
      obtain ⟨p, hp, rfl⟩ := ht
      rw [List.mem_filter] at hp
      have hpne : pyStrip p ≠ "" := by simpa using hp.2
      refine ⟨pyStrip_pyLower_pyStrip p, pyLower_pyLower (pyStrip p),
        pyLower_ne_empty hpne, ?_⟩
      intro hnd
      rw [hdelim] at hnd
      exact absurd hnd (by simp)
    · rename_i hdelim
      rw [List.mem_singleton] at ht
      subst ht
      simp only [Bool.or_eq_true, decide_eq_true_eq, not_or] at hsent
      exact ⟨pyStrip_pyLower_pyStrip cell, pyLower_pyLower (pyStrip cell),
        hsent.1.1, fun _ => ⟨hsent.1.2, hsent.2⟩⟩

/-- Witness for C6: the cell `" Mary "` normalizes to the single token
`"mary"`, which is trimmed, lowercase, non-empty and not a sentinel. -/
theorem C6_token_invariant_witness :
    pyStrip "mary" = "mary" ∧ pyLower "mary" = "mary" ∧ "mary" ≠ ""
      ∧ ((pyLower (pyStrip " Mary ")).toList.any isDelim = false →
          "mary" ≠ "nan" ∧ "mary" ≠ "none") :=
  C6_token_invariant " Mary " "mary" (by decide)

/-- Claim C7, counterexample: `"a,b"` is trimmed, lowercase, non-empty
and not a sentinel, yet `normalize_cell` splits it into two tokens
instead of returning it unchanged. -/
theorem C7_counterexample :
    (pyStrip "a,b" = "a,b" ∧ pyLower "a,b" = "a,b"
      ∧ "a,b" ≠ "" ∧ "a,b" ≠ "nan" ∧ "a,b" ≠ "none")
    ∧ normalize_cell "a,b" ≠ ["a,b"] :=
  ⟨by decide, by decide⟩

/-- Claim C7, amended: normalizing an already-normalized single token —
trimmed, lowercase, non-empty, not a sentinel, and containing no
delimiter character — returns exactly that one token. -/
theorem C7_idempotent :
    ∀ t : String, pyStrip t = t → pyLower t = t → t ≠ "" → t ≠ "nan" → t ≠ "none" →
      t.toList.any isDelim = false → normalize_cell t = [t] := by
  intro t h1 h2 h3 h4 h5 h6
  simp only [normalize_cell, h1, h2]
  rw [if_neg (by simp [h3, h4, h5]), if_neg (by rw [h6]; simp)]

/-- Witness for C7: `"mary"` normalizes to itself. -/
theorem C7_idempotent_witness : normalize_cell "mary" = ["mary"] :=
  C7_idempotent "mary" (by decide) (by decide) (by decide) (by decide) (by decide)
    (by decide)

/-- Claim C5: `clean_name` removes the maximal run of trailing decimal
digits and then capitalizes (uppercase first character, lowercase
remainder); `"john2" ↦ "John"`, `"mary" ↦ "Mary"`, and a name without
trailing digits is only capitalized. -/
theorem C5_clean_name :
    ∀ name : String,
      (name.toList = (stripTrailingDigits name).toList
          ++ name.toList.rtakeWhile Char.isDigit
        ∧ (∀ c ∈ name.toList.rtakeWhile Char.isDigit, c.isDigit = true)
        ∧ (∀ c, (stripTrailingDigits name).toList.getLast? = some c → c.isDigit = false))
      ∧ (clean_name name).toList =
          (match (stripTrailingDigits name).toList with
           | [] => []
           | c :: cs => pyToUpper c :: cs.map pyToLower)
      ∧ clean_name "john2" = "John" ∧ clean_name "mary" = "Mary"
      ∧ ((∀ c, name.toList.getLast? = some c → c.isDigit = false) →
          clean_name name = pyCapitalize name) := by
  intro name
  refine ⟨⟨?_, ?_, ?_⟩, ?_, rfl, rfl, ?_⟩
  · exact (rdropWhile_append_rtakeWhile Char.isDigit name.toList).symm
  · intro c hc
    exact List.mem_rtakeWhile_imp hc
  · intro c hc
    have hne : name.toList.rdropWhile Char.isDigit ≠ [] := by
      intro h
      rw [show (stripTrailingDigits name).toList = name.toList.rdropWhile Char.isDigit
          from rfl, h] at hc
      exact absurd hc (by simp)
    have hlast := List.rdropWhile_last_not Char.isDigit name.toList hne
    rw [show (stripTrailingDigits name).toList = name.toList.rdropWhile Char.isDigit
        from rfl, List.getLast?_eq_getLast _ hne] at hc
    have hceq : c = (name.toList.rdropWhile Char.isDigit).getLast hne :=
      (Option.some.injEq _ _ ▸ hc).symm
    rw [hceq]
    exact Bool.not_eq_true _ ▸ hlast
  · by_cases hn : name = ""
    · subst hn
      rfl
    · rw [show clean_name name = pyCapitalize (stripTrailingDigits name) by
        unfold clean_name; rw [if_neg hn]]
      unfold pyCapitalize
      cases hm : (stripTrailingDigits name).toList with
      | nil => exact hm
      | cons c cs => rfl
  · intro h
    have hstrip : stripTrailingDigits name = name := by
      have hself : name.toList.rdropWhile Char.isDigit = name.toList := by
        rw [List.rdropWhile_eq_self_iff]
        intro hl
        simp only [Bool.not_eq_true]
        exact h _ (List.getLast?_eq_getLast _ hl)
      show String.mk (name.toList.rdropWhile Char.isDigit) = name
      rw [hself]
      rfl
    by_cases hn : name = ""
    · subst hn
      rfl
    · unfold clean_name
      rw [if_neg hn, hstrip]

/-- Witness for C5: instantiating the no-trailing-digit clause at
`"mary"`. -/
theorem C5_clean_name_witness : clean_name "mary" = pyCapitalize "mary" :=
  (C5_clean_name "mary").2.2.2.2 (by decide)

/-- Claim C8: materialization terminates — `make_node` is a total
function — and for every bound `B` on the length of acyclic paths of the
adjacency map, the height of the produced tree (the recursion depth) is
at most `B + 1`, for every starting token and visited set. -/
theorem C8_termination_depth :
    ∀ (pcm : PCM) (B : Nat),
      (∀ l, IsAcyclicPath pcm l → l.length ≤ B) →
      ∀ (name : String) (visited : Finset String),
        Tree.height (make_node name pcm visited) ≤ B + 1 := by
  intro pcm B hB name visited
  have := make_node_height_aux pcm B hB ((pcmTokens pcm \ visited).card) [] name visited
    (le_refl _) List.nodup_nil List.chain'_nil (by simp)
    (fun h => absurd rfl h)
  simpa using this

/-- Witness for C8: in the empty adjacency map every acyclic path has
length at most 1, so materializing any token reaches height at most 2. -/
theorem C8_termination_depth_witness :
    Tree.height (make_node "a" [] ∅) ≤ 2 := by
  apply C8_termination_depth [] 1
  intro l hl
  match l with
  | [] => simp
  | [x] => simp
  | x :: y :: l =>
    exfalso
    have hstep : step [] x y := (List.chain'_cons.mp hl.2).1
    exact absurd hstep (List.not_mem_nil y)

/-- Claim C9: the name transformer does not change tree structure — the
shape (number, order and nesting of children) of the transformed tree is
identical, and the preorder name list is exactly the original names
rewritten by `clean_name`. -/
theorem C9_transform_structure :
    ∀ t : Tree, Tree.shape (transform_names t) = Tree.shape t
      ∧ Tree.names (transform_names t) = (Tree.names t).map clean_name :=
  fun t => ⟨shape_transform_names t, names_transform_names t⟩

/-- Claim C10: on the empty adjacency map, `build_tree` returns the empty
forest — not a single node and not an error. -/
theorem C10_empty_map : build_tree [] = BuildResult.many [] := rfl

end FamilyGeonology
